import Mathlib

/-!
# uz2: chunked compressor for Unreal packages

A shallow embedding of `src/uz2.c` (`write_le_uint32`, `compress_file` and the
part of `main` that runs it) together with the properties of the `.uz2`
record stream that the specification states.

Conventions of the embedding:

* a byte (`unsigned char`) is a natural number; streams are lists of bytes;
* `size_t` is 64 bits wide and `uint32_t` 32 bits wide; every operation that
  can wrap is written with an explicit `%`;
* the C library is modelled by small functions on explicit file states;
  zlib, the host byte order and the contents of fresh heap memory are
  parameters.
-/

namespace Uz2

/-! ## Constants and machine arithmetic -/

/-- The macro `COMPRESS_BUFSIZ` (`0x8000`). -/
def COMPRESS_BUFSIZ : Nat := 0x8000

/-- The value of `EXIT_SUCCESS`. -/
def EXIT_SUCCESS : Nat := 0

/-- The value of `EXIT_FAILURE`. -/
def EXIT_FAILURE : Nat := 1

/-- Number of values of `size_t` (64-bit host). -/
def SIZE_MOD : Nat := 2 ^ 64

/-- Number of values of `uint32_t`. -/
def UINT32_MOD : Nat := 2 ^ 32

/-- Addition of two `size_t` values, wrapping. -/
def size_add (a b : Nat) : Nat := (a + b) % SIZE_MOD

/-- Multiplication of two `size_t` values, wrapping. -/
def size_mul (a b : Nat) : Nat := (a * b) % SIZE_MOD

/-- Division of two `size_t` values; `none` stands for the undefined division
by zero. -/
def size_div (a b : Nat) : Option Nat := if b = 0 then none else some (a / b)

/-- Conversion of a `size_t` value to `uint32_t` (the implicit conversion at
the calls of `write_le_uint32`). -/
def to_uint32 (v : Nat) : Nat := v % UINT32_MOD

/-! ## Host and libraries -/

/-- Byte order of the host the program runs on. -/
inductive Endian where
  | little
  | big
deriving DecidableEq, Repr

/-- What the program takes from its host: the byte order and the contents of
freshly allocated memory (`heap i` is the byte found at offset `i` of a block
that `malloc` returns). -/
structure Host where
  endian : Endian
  heap : Nat → Nat

/-- The four bytes of a `uint32_t` object in memory, lowest address first. -/
def object_bytes (e : Endian) (v : Nat) : List Nat :=
  match e with
  | Endian.little => [v % 256, v / 2 ^ 8 % 256, v / 2 ^ 16 % 256, v / 2 ^ 24 % 256]
  | Endian.big => [v / 2 ^ 24 % 256, v / 2 ^ 16 % 256, v / 2 ^ 8 % 256, v % 256]

/-- The contents of a block of `n` bytes returned by `malloc`. -/
def malloc (h : Host) (n : Nat) : List Nat := (List.range n).map h.heap

/-- The zlib entry point the program calls. `compress2 destLen source level`
is the contents of the destination buffer up to the length the call stores
back in `destLen`: the compressed data and its size. -/
structure Zlib where
  compress2 : Nat → List Nat → Int → List Nat

/-- Modelled from the spec: zlib's `compressBound` is a library function that
is not part of the sources; this is the worst-case expansion formula the
specification refers to, `n + n/2^12 + n/2^14 + n/2^25 + 13`. -/
def compressBound (sourceLen : Nat) : Nat :=
  sourceLen + sourceLen / 2 ^ 12 + sourceLen / 2 ^ 14 + sourceLen / 2 ^ 25 + 13

/-! ## Streams -/

/-- An input stream opened for reading: the bytes of the file and the current
position. -/
structure InFile where
  content : List Nat
  pos : Nat
deriving DecidableEq, Repr

/-- An output stream: the bytes written so far and the number of bytes the
device still accepts (`none` when it never runs out). -/
structure OutFile where
  data : List Nat
  room : Option Nat
deriving DecidableEq, Repr

/-- The stream that `fopen(name, "rb")` returns for a file with the given
bytes. -/
def fopen_rb (content : List Nat) : InFile := { content := content, pos := 0 }

/-- The stream that `fopen(name, "wb")` returns: an empty file. -/
def fopen_wb (room : Option Nat) : OutFile := { data := [], room := room }

/-- Outcome of `fread`: the number of items read, the buffer and the stream
afterwards. -/
structure ReadResult where
  count : Nat
  buf : List Nat
  file : InFile

/-- The call `fread(buf, 1, nmemb, f)`: reads `min nmemb remaining` bytes
from the current position into the start of the buffer. -/
def fread (buf : List Nat) (nmemb : Nat) (f : InFile) : ReadResult :=
  let got := (f.content.drop f.pos).take nmemb
  { count := got.length,
    buf := got ++ buf.drop got.length,
    file := { f with pos := f.pos + got.length } }

/-- The call `fseek(f, 0, SEEK_END)`. -/
def fseek_end (f : InFile) : InFile := { f with pos := f.content.length }

/-- The call `fseek(f, 0, SEEK_SET)`. -/
def fseek_set (f : InFile) : InFile := { f with pos := 0 }

/-- The call `ftell(f)`. -/
def ftell (f : InFile) : Nat := f.pos

/-- The call `fwrite(buf, size, nmemb, f)`: the device takes as many of the
`size * nmemb` bytes as it has room for; the result is the number of complete
items written and the stream afterwards. -/
def fwrite (buf : List Nat) (size nmemb : Nat) (f : OutFile) : Nat × OutFile :=
  let bytes := buf.take (size * nmemb)
  let accepted := match f.room with
    | none => bytes.length
    | some r => min r bytes.length
  (accepted / size,
   { data := f.data ++ bytes.take accepted,
     room := f.room.map (fun r => r - accepted) })

/-! ## The program -/

/-- The fields of `struct options` that `compress_file` reads for its
result. -/
structure options where
  verbose : Bool
  harder : Bool

/-- One line of verbose output: the four numbers `printf` formats. -/
structure Progress where
  bread : Nat
  cout : Nat
  ratio : Option Nat
  complete : Option Nat
deriving DecidableEq, Repr

/-- The function `write_le_uint32`: `fwrite(&v, 1, 4, f)` on the object `v`. -/
def write_le_uint32 (e : Endian) (f : OutFile) (v : Nat) : Nat × OutFile :=
  fwrite (object_bytes e v) 1 4 f

/-- The variables of `compress_file` that change in its loop, and the
standard output. -/
structure LoopState where
  infile : InFile
  inbuf : List Nat
  outfile : OutFile
  tread : Nat
  stdout : List Progress

/-- The level argument of `compress2`: `opt->harder ? 9 : -1`. -/
def level (opt : options) : Int := if opt.harder then 9 else -1

/-- The `while` loop of `compress_file`. -/
def compress_loop (h : Host) (Z : Zlib) (opt : options) (inlen : Nat)
    (st : LoopState) : LoopState :=
  let r := fread st.inbuf COMPRESS_BUFSIZ st.infile
  if hb : r.count > 0 then
    let bread := r.count
    let tread := size_add st.tread bread
    let outbuf := Z.compress2 (compressBound bread) (r.buf.take bread) (level opt)
    let cout := outbuf.length
    let stdout :=
      if opt.verbose then
        st.stdout ++ [{ bread := bread, cout := cout,
                        ratio := size_div (size_mul cout 100) bread,
                        complete := size_div (size_mul tread 100) inlen }]
      else st.stdout
    let o1 := (write_le_uint32 h.endian st.outfile (to_uint32 cout)).2
    let o2 := (write_le_uint32 h.endian o1 (to_uint32 bread)).2
    let o3 := (fwrite outbuf cout 1 o2).2
    compress_loop h Z opt inlen
      { infile := r.file, inbuf := r.buf, outfile := o3, tread := tread, stdout := stdout }
  else
    { st with infile := r.file, inbuf := r.buf }
termination_by st.infile.content.length - st.infile.pos
decreasing_by
  have hpos : 0 < (fread st.inbuf COMPRESS_BUFSIZ st.infile).count := hb
  simp only [fread, List.length_take, List.length_drop] at hpos ⊢
  omega

/-- What `compress_file` prints on the standard error stream. -/
inductive Diag where
  | not_unreal_package
deriving DecidableEq, Repr

/-- What a call of `compress_file` leaves behind: its return value, the output
stream and the two text streams. -/
structure Result where
  ret : Int
  outfile : OutFile
  stdout : List Progress
  stderr : List Diag

/-- The function `compress_file`. The buffer has `COMPRESS_BUFSIZ` bytes, so
the default of `getD` is never used. -/
def compress_file (h : Host) (Z : Zlib) (infile : InFile) (outfile : OutFile)
    (opt : options) : Result :=
  let readamount := COMPRESS_BUFSIZ
  let inbuf := malloc h readamount
  let r := fread inbuf 4 infile
  if r.buf.getD 0 0 ≠ 0xc1 ∨ r.buf.getD 1 0 ≠ 0x83 ∨ r.buf.getD 2 0 ≠ 0x2a
      ∨ r.buf.getD 3 0 ≠ 0x9e then
    { ret := -1, outfile := outfile, stdout := [], stderr := [Diag.not_unreal_package] }
  else
    let f1 := fseek_end r.file
    let inlen := ftell f1 % SIZE_MOD
    let f2 := fseek_set f1
    let st := compress_loop h Z opt inlen
      { infile := f2, inbuf := r.buf, outfile := outfile, tread := 0, stdout := [] }
    { ret := 0, outfile := st.outfile, stdout := st.stdout, stderr := [] }

/-- The end of `main`, from the two successful `fopen` calls on: the input
file holds `content`, the output file is empty and its device has `room`.
The result is the exit code and the output file. -/
def main (h : Host) (Z : Zlib) (opt : options) (content : List Nat)
    (room : Option Nat) : Nat × OutFile :=
  let r := compress_file h Z (fopen_rb content) (fopen_wb room) opt
  (if r.ret = 0 then EXIT_SUCCESS else EXIT_FAILURE, r.outfile)

/-! ## The record stream, as the specification describes it -/

/-- The signature of an Unreal package, `C1 83 2A 9E`. -/
def magic : List Nat := [0xc1, 0x83, 0x2a, 0x9e]

/-- The chunks of a stream: maximal runs of up to `n` consecutive bytes, in
stream order. -/
def chunks (n : Nat) (l : List Nat) : List (List Nat) :=
  if 0 < n ∧ l ≠ [] then l.take n :: chunks n (l.drop n) else []
termination_by l.length
decreasing_by
  rename_i hc
  have hl : 0 < l.length := List.length_pos.mpr hc.2
  simp only [List.length_drop]
  omega

/-- A compressed record: the values of its two length fields and its
payload. -/
structure Record where
  compressed_length : Nat
  raw_length : Nat
  payload : List Nat
deriving DecidableEq, Repr

/-- The bytes of a record on a host of byte order `e`: the two length fields
as `uint32_t` objects, then the payload. -/
def Record.bytes (e : Endian) (r : Record) : List Nat :=
  object_bytes e r.compressed_length ++ object_bytes e r.raw_length ++ r.payload

/-- The record of one chunk: its compression at the selected level, with the
two lengths as `uint32_t` values. -/
def record_of (Z : Zlib) (opt : options) (chunk : List Nat) : Record :=
  { compressed_length :=
      to_uint32 (Z.compress2 (compressBound chunk.length) chunk (level opt)).length,
    raw_length := to_uint32 chunk.length,
    payload := Z.compress2 (compressBound chunk.length) chunk (level opt) }

/-- The records of a whole input, in chunk order. -/
def records (Z : Zlib) (opt : options) (content : List Nat) : List Record :=
  (chunks COMPRESS_BUFSIZ content).map (record_of Z opt)

/-- A record stream: the records one after the other and nothing else. -/
def encode (e : Endian) : List Record → List Nat
  | [] => []
  | r :: rs => r.bytes e ++ encode e rs

/-- The three writes the loop performs for one record, on any device. -/
def write_record (e : Endian) (f : OutFile) (r : Record) : OutFile :=
  (fwrite r.payload r.payload.length 1
    (write_le_uint32 e (write_le_uint32 e f r.compressed_length).2 r.raw_length).2).2

/-- The verbose lines for a list of chunks, `t` bytes having been read before
them, for a total length `inlen`. -/
def progress (Z : Zlib) (opt : options) (inlen : Nat) : Nat → List (List Nat) → List Progress
  | _, [] => []
  | t, c :: cs =>
    { bread := c.length,
      cout := (Z.compress2 (compressBound c.length) c (level opt)).length,
      ratio := size_div
        (size_mul (Z.compress2 (compressBound c.length) c (level opt)).length 100) c.length,
      complete := size_div (size_mul (size_add t c.length) 100) inlen }
      :: progress Z opt inlen (size_add t c.length) cs

/-- The value of a `uint32_t` object, from its four bytes in memory. -/
def object_value (e : Endian) (bs : List Nat) : Nat :=
  match e, bs with
  | Endian.little, [b0, b1, b2, b3] => b0 + b1 * 2 ^ 8 + b2 * 2 ^ 16 + b3 * 2 ^ 24
  | Endian.big, [b3, b2, b1, b0] => b0 + b1 * 2 ^ 8 + b2 * 2 ^ 16 + b3 * 2 ^ 24
  | _, _ => 0

/-- The reader of a record stream: two length fields, then as many payload
bytes as the first field says, record after record until the end of the
stream; `none` when the stream ends inside a record. -/
def read_records (e : Endian) (bs : List Nat) : Option (List Record) :=
  if bs = [] then some []
  else if bs.length < 8 then none
  else if (bs.drop 8).length < object_value e (bs.take 4) then none
  else
    (read_records e ((bs.drop 8).drop (object_value e (bs.take 4)))).map
      (fun rs =>
        { compressed_length := object_value e (bs.take 4),
          raw_length := object_value e ((bs.drop 4).take 4),
          payload := (bs.drop 8).take (object_value e (bs.take 4)) } :: rs)
termination_by bs.length
decreasing_by
  rename_i _ h2 _
  simp only [List.length_drop]
  omega

/-- The assumption on the compressor: on a destination of `compressBound n`
bytes it never produces more than `compressBound n` bytes for an `n`-byte
source. -/
def Zlib.respects_bound (Z : Zlib) : Prop :=
  ∀ (source : List Nat) (lvl : Int),
    (Z.compress2 (compressBound source.length) source lvl).length ≤ compressBound source.length

/-- The assumption on a decompressor `inflate`: it inverts the compressor at
every level. -/
def Zlib.inverted_by (Z : Zlib) (inflate : List Nat → List Nat) : Prop :=
  ∀ (source : List Nat) (lvl : Int),
    inflate (Z.compress2 (compressBound source.length) source lvl) = source

/-- A compressor that stores its input unchanged (as much of it as the
destination holds); used for concrete runs. -/
def store : Zlib := { compress2 := fun destLen source _ => source.take destLen }

/-- A little-endian host whose fresh memory is zeroed; used for concrete
runs. -/
def le_host : Host := { endian := Endian.little, heap := fun _ => 0 }

/-- A big-endian host whose fresh memory is zeroed; used for concrete runs. -/
def be_host : Host := { endian := Endian.big, heap := fun _ => 0 }

/-! ## Chunks -/

theorem chunks_nil (n : Nat) : chunks n [] = [] := by
  rw [chunks]; simp

theorem chunks_zero (l : List Nat) : chunks 0 l = [] := by
  rw [chunks]; simp

theorem chunks_cons (n : Nat) (l : List Nat) (hn : 0 < n) (hl : l ≠ []) :
    chunks n l = l.take n :: chunks n (l.drop n) := by
  rw [chunks]; simp [hn, hl]

/-- Strong induction along the way `chunks` cuts a list. -/
theorem chunks_induction (n : Nat) (hn : 0 < n) (P : List Nat → Prop)
    (hnil : P [])
    (hstep : ∀ l, l ≠ [] → P (l.drop n) → P l) : ∀ l, P l := by
  intro l
  generalize hk : l.length = k
  induction k using Nat.strong_induction_on generalizing l with
  | _ k ih =>
    by_cases hl : l = []
    · subst hl; exact hnil
    · apply hstep l hl
      have hpos : 0 < l.length := List.length_pos.mpr hl
      exact ih (l.drop n).length (by simp only [List.length_drop]; omega) _ rfl

theorem chunks_flatten (n : Nat) (hn : 0 < n) (l : List Nat) : (chunks n l).flatten = l := by
  refine chunks_induction n hn (fun l => (chunks n l).flatten = l) ?_ ?_ l
  · simp [chunks_nil]
  · intro l hl ih
    rw [chunks_cons n l hn hl, List.flatten_cons, ih, List.take_append_drop]

theorem chunks_length (n : Nat) (hn : 0 < n) (l : List Nat) :
    (chunks n l).length = (l.length + (n - 1)) / n := by
  refine chunks_induction n hn (fun l => (chunks n l).length = (l.length + (n - 1)) / n) ?_ ?_ l
  · simp only [chunks_nil, List.length_nil, Nat.zero_add]
    exact (Nat.div_eq_of_lt (by omega)).symm
  · intro l hl ih
    have hpos : 0 < l.length := List.length_pos.mpr hl
    rw [chunks_cons n l hn hl, List.length_cons, ih, List.length_drop]
    by_cases hle : n ≤ l.length
    · have h1 : l.length + (n - 1) = (l.length - n + (n - 1)) + n := by omega
      rw [h1, Nat.add_div_right _ hn]
    · have h0 : l.length - n + (n - 1) < n := by omega
      rw [Nat.div_eq_of_lt h0]
      have h2 : l.length + (n - 1) = (l.length - 1) + n := by omega
      rw [h2, Nat.add_div_right _ hn, Nat.div_eq_of_lt (by omega)]

theorem chunks_mem_length (n : Nat) (l : List Nat) :
    ∀ c ∈ chunks n l, 0 < c.length ∧ c.length ≤ n := by
  by_cases hn : 0 < n
  · refine chunks_induction n hn (fun l => ∀ c ∈ chunks n l, 0 < c.length ∧ c.length ≤ n) ?_ ?_ l
    · simp [chunks_nil]
    · intro l hl ih c hc
      have hpos : 0 < l.length := List.length_pos.mpr hl
      rw [chunks_cons n l hn hl, List.mem_cons] at hc
      rcases hc with rfl | hc
      · simp only [List.length_take]; omega
      · exact ih c hc
  · have h0 : n = 0 := by omega
    subst h0
    simp [chunks_zero]

theorem chunks_dropLast_length (n : Nat) (l : List Nat) :
    ∀ c ∈ (chunks n l).dropLast, c.length = n := by
  by_cases hn : 0 < n
  · refine chunks_induction n hn (fun l => ∀ c ∈ (chunks n l).dropLast, c.length = n) ?_ ?_ l
    · simp [chunks_nil]
    · intro l hl ih c hc
      rw [chunks_cons n l hn hl] at hc
      by_cases hd : l.drop n = []
      · rw [hd, chunks_nil] at hc
        simp at hc
      · rw [chunks_cons n (l.drop n) hn hd, List.dropLast_cons₂, List.mem_cons] at hc
        rcases hc with rfl | hc
        · have : n < l.length := by
            by_contra hlt
            exact hd (List.drop_eq_nil_of_le (by omega))
          simp only [List.length_take]; omega
        · rw [← chunks_cons n (l.drop n) hn hd] at hc
          exact ih c hc
  · have h0 : n = 0 := by omega
    subst h0
    simp [chunks_zero]

/-! ## The C library model -/

theorem drop_take_length (n : Nat) (l : List Nat) : l.drop (l.take n).length = l.drop n := by
  rw [List.length_take]
  by_cases hle : n ≤ l.length
  · rw [Nat.min_eq_left hle]
  · rw [Nat.min_eq_right (by omega), List.drop_length, List.drop_eq_nil_of_le (by omega)]

theorem fread_count (buf : List Nat) (n : Nat) (f : InFile) :
    (fread buf n f).count = ((f.content.drop f.pos).take n).length := rfl

/-- A read returns `min nmemb remaining` items. -/
theorem fread_count_min (buf : List Nat) (n : Nat) (f : InFile) :
    (fread buf n f).count = min n (f.content.length - f.pos) := by
  rw [fread_count, List.length_take, List.length_drop]

theorem fread_buf_take (buf : List Nat) (n : Nat) (f : InFile) :
    (fread buf n f).buf.take (fread buf n f).count = (f.content.drop f.pos).take n := by
  simp only [fread, List.take_left']

theorem fread_file_content (buf : List Nat) (n : Nat) (f : InFile) :
    (fread buf n f).file.content = f.content := rfl

theorem fread_file_rest (buf : List Nat) (n : Nat) (f : InFile) :
    (fread buf n f).file.content.drop (fread buf n f).file.pos
      = (f.content.drop f.pos).drop n := by
  simp only [fread]
  rw [← drop_take_length n (f.content.drop f.pos), List.drop_drop, Nat.add_comm]

theorem fread_count_pos (buf : List Nat) (n : Nat) (hn : 0 < n) (f : InFile) :
    0 < (fread buf n f).count ↔ f.content.drop f.pos ≠ [] := by
  rw [fread_count, List.length_take, ← List.length_pos]
  omega

theorem fwrite_unbounded (buf : List Nat) (size nmemb : Nat) (f : OutFile)
    (hroom : f.room = none) :
    (fwrite buf size nmemb f).2 = { data := f.data ++ buf.take (size * nmemb), room := none } := by
  simp [fwrite, hroom]

theorem object_bytes_length (e : Endian) (v : Nat) : (object_bytes e v).length = 4 := by
  cases e <;> rfl

theorem write_record_unbounded (e : Endian) (f : OutFile) (r : Record) (hroom : f.room = none) :
    write_record e f r = { data := f.data ++ r.bytes e, room := none } := by
  unfold write_record write_le_uint32
  rw [fwrite_unbounded _ _ _ f hroom, fwrite_unbounded _ _ _ _ rfl, fwrite_unbounded _ _ _ _ rfl]
  have h4 : ∀ v, (object_bytes e v).take (1 * 4) = object_bytes e v := by
    intro v
    exact List.take_of_length_le (by rw [object_bytes_length])
  simp only [h4, Nat.mul_one, List.take_length, Record.bytes, List.append_assoc]

theorem foldl_write_record_unbounded (e : Endian) (rs : List Record) :
    ∀ f : OutFile, f.room = none →
      rs.foldl (write_record e) f = { data := f.data ++ encode e rs, room := none } := by
  induction rs with
  | nil =>
    intro f hroom
    cases f
    simp only at hroom
    simp [encode, hroom]
  | cons r rs ih =>
    intro f hroom
    rw [List.foldl_cons, write_record_unbounded e f r hroom, ih _ rfl]
    simp [encode]

/-! ## The loop -/

theorem compress_loop_eof (h : Host) (Z : Zlib) (opt : options) (inlen : Nat) (st : LoopState)
    (hrest : st.infile.content.drop st.infile.pos = []) :
    compress_loop h Z opt inlen st =
      { st with infile := (fread st.inbuf COMPRESS_BUFSIZ st.infile).file,
                inbuf := (fread st.inbuf COMPRESS_BUFSIZ st.infile).buf } := by
  have hc : ¬ 0 < (fread st.inbuf COMPRESS_BUFSIZ st.infile).count := by
    rw [fread_count_pos _ _ (by decide)]
    simpa using hrest
  rw [compress_loop]
  simp only [gt_iff_lt, hc, dite_false]

theorem compress_loop_step (h : Host) (Z : Zlib) (opt : options) (inlen : Nat) (st : LoopState)
    (hrest : st.infile.content.drop st.infile.pos ≠ []) :
    compress_loop h Z opt inlen st =
      compress_loop h Z opt inlen
        { infile := (fread st.inbuf COMPRESS_BUFSIZ st.infile).file,
          inbuf := (fread st.inbuf COMPRESS_BUFSIZ st.infile).buf,
          outfile := write_record h.endian st.outfile
            (record_of Z opt ((st.infile.content.drop st.infile.pos).take COMPRESS_BUFSIZ)),
          tread := size_add st.tread
            ((st.infile.content.drop st.infile.pos).take COMPRESS_BUFSIZ).length,
          stdout := if opt.verbose then
              st.stdout ++ progress Z opt inlen st.tread
                [(st.infile.content.drop st.infile.pos).take COMPRESS_BUFSIZ]
            else st.stdout } := by
  have hc : 0 < (fread st.inbuf COMPRESS_BUFSIZ st.infile).count :=
    (fread_count_pos _ _ (by decide) _).mpr hrest
  rw [compress_loop]
  simp only [gt_iff_lt, hc, dite_true]
  have hb := fread_buf_take st.inbuf COMPRESS_BUFSIZ st.infile
  rw [fread_count] at hb
  simp only [fread_count, hb, write_record, record_of, progress]

theorem records_nil (Z : Zlib) (opt : options) : records Z opt [] = [] := by
  simp [records, chunks_nil]

theorem records_cons (Z : Zlib) (opt : options) (l : List Nat) (hl : l ≠ []) :
    records Z opt l
      = record_of Z opt (l.take COMPRESS_BUFSIZ) :: records Z opt (l.drop COMPRESS_BUFSIZ) := by
  simp [records, chunks_cons COMPRESS_BUFSIZ l (by decide) hl]

theorem chunks_single (n : Nat) (l : List Nat) (hl : l ≠ []) (hlen : l.length ≤ n) :
    chunks n l = [l] := by
  have hpos : 0 < l.length := List.length_pos.mpr hl
  rw [chunks_cons n l (by omega) hl, List.drop_eq_nil_of_le hlen, chunks_nil,
    List.take_of_length_le hlen]

theorem records_single (Z : Zlib) (opt : options) (l : List Nat) (hl : l ≠ [])
    (hlen : l.length ≤ COMPRESS_BUFSIZ) : records Z opt l = [record_of Z opt l] := by
  simp [records, chunks_single COMPRESS_BUFSIZ l hl hlen]

/-- What the loop leaves in the output stream and on the standard output, for
any device and any starting state: one `write_record` per chunk of the unread
part of the input, and one verbose line per chunk when `verbose` is set. -/
theorem compress_loop_spec (h : Host) (Z : Zlib) (opt : options) (inlen : Nat) :
    ∀ st : LoopState,
      (compress_loop h Z opt inlen st).outfile
          = (records Z opt (st.infile.content.drop st.infile.pos)).foldl
              (write_record h.endian) st.outfile
      ∧ (compress_loop h Z opt inlen st).stdout
          = (if opt.verbose then
              st.stdout ++ progress Z opt inlen st.tread
                (chunks COMPRESS_BUFSIZ (st.infile.content.drop st.infile.pos))
            else st.stdout) := by
  intro st
  generalize hk : (st.infile.content.drop st.infile.pos).length = k
  induction k using Nat.strong_induction_on generalizing st with
  | _ k ih =>
    by_cases hrest : st.infile.content.drop st.infile.pos = []
    · rw [compress_loop_eof h Z opt inlen st hrest, hrest, records_nil, chunks_nil]
      simp [progress]
    · have hpos : 0 < (st.infile.content.drop st.infile.pos).length := List.length_pos.mpr hrest
      rw [compress_loop_step h Z opt inlen st hrest]
      have hnext := ih ((st.infile.content.drop st.infile.pos).drop COMPRESS_BUFSIZ).length
        (by rw [← hk, List.length_drop]; simp only [COMPRESS_BUFSIZ]; omega)
        { infile := (fread st.inbuf COMPRESS_BUFSIZ st.infile).file,
          inbuf := (fread st.inbuf COMPRESS_BUFSIZ st.infile).buf,
          outfile := write_record h.endian st.outfile
            (record_of Z opt ((st.infile.content.drop st.infile.pos).take COMPRESS_BUFSIZ)),
          tread := size_add st.tread
            ((st.infile.content.drop st.infile.pos).take COMPRESS_BUFSIZ).length,
          stdout := if opt.verbose then
              st.stdout ++ progress Z opt inlen st.tread
                [(st.infile.content.drop st.infile.pos).take COMPRESS_BUFSIZ]
            else st.stdout }
        (by simp only [fread_file_rest])
      simp only [fread_file_rest] at hnext
      rw [hnext.1, hnext.2, records_cons Z opt _ hrest,
        chunks_cons COMPRESS_BUFSIZ _ (by decide) hrest]
      refine ⟨by simp, ?_⟩
      cases hv : opt.verbose <;> simp [progress]

/-! ## The whole function -/

/-- The condition of the `if` in `compress_file`, after the first `fread` on a
freshly opened file of at least four bytes, compares those four bytes with
the signature. -/
theorem signature_test (h : Host) (content : List Nat) (hlen : 4 ≤ content.length) :
    ((fread (malloc h COMPRESS_BUFSIZ) 4 (fopen_rb content)).buf.getD 0 0 ≠ 0xc1
      ∨ (fread (malloc h COMPRESS_BUFSIZ) 4 (fopen_rb content)).buf.getD 1 0 ≠ 0x83
      ∨ (fread (malloc h COMPRESS_BUFSIZ) 4 (fopen_rb content)).buf.getD 2 0 ≠ 0x2a
      ∨ (fread (malloc h COMPRESS_BUFSIZ) 4 (fopen_rb content)).buf.getD 3 0 ≠ 0x9e)
      ↔ content.take 4 ≠ magic := by
  match content, hlen with
  | a :: b :: c :: d :: rest, _ =>
    simp only [fread, fopen_rb, List.drop_zero, List.take_succ_cons, List.take_zero,
      List.cons_append, List.nil_append, List.getD_cons_zero, List.getD_cons_succ, magic,
      ne_eq, List.cons.injEq, and_true, not_and_or]

theorem compress_file_bad_signature (h : Host) (Z : Zlib) (opt : options) (content : List Nat)
    (out : OutFile) (hlen : 4 ≤ content.length) (hsig : content.take 4 ≠ magic) :
    compress_file h Z (fopen_rb content) out opt
      = { ret := -1, outfile := out, stdout := [], stderr := [Diag.not_unreal_package] } := by
  have ht := (signature_test h content hlen).mpr hsig
  unfold compress_file
  simp only [ht, if_true]

theorem length_of_signature (content : List Nat) (hsig : content.take 4 = magic) :
    4 ≤ content.length := by
  have hl := congrArg List.length hsig
  simp only [List.length_take, magic, List.length_cons, List.length_nil] at hl
  omega

theorem compress_file_good_signature (h : Host) (Z : Zlib) (opt : options) (content : List Nat)
    (out : OutFile) (hsig : content.take 4 = magic) :
    compress_file h Z (fopen_rb content) out opt
      = { ret := 0,
          outfile := (records Z opt content).foldl (write_record h.endian) out,
          stdout := if opt.verbose then
              progress Z opt (content.length % SIZE_MOD) 0 (chunks COMPRESS_BUFSIZ content)
            else [],
          stderr := [] } := by
  have hlen := length_of_signature content hsig
  have ht : ¬ _ := fun hc => (signature_test h content hlen).mp hc hsig
  unfold compress_file
  simp only [ht, if_false]
  have hspec := compress_loop_spec h Z opt
    (ftell (fseek_end (fread (malloc h COMPRESS_BUFSIZ) 4 (fopen_rb content)).file) % SIZE_MOD)
    { infile := fseek_set (fseek_end (fread (malloc h COMPRESS_BUFSIZ) 4 (fopen_rb content)).file),
      inbuf := (fread (malloc h COMPRESS_BUFSIZ) 4 (fopen_rb content)).buf,
      outfile := out, tread := 0, stdout := [] }
  rw [hspec.1, hspec.2]
  simp [fseek_set, fseek_end, ftell, fread, fopen_rb]

theorem compress_file_ret (h : Host) (Z : Zlib) (opt : options) (content : List Nat)
    (out : OutFile) (hlen : 4 ≤ content.length) :
    (compress_file h Z (fopen_rb content) out opt).ret = 0 ↔ content.take 4 = magic := by
  by_cases hsig : content.take 4 = magic
  · rw [compress_file_good_signature h Z opt content out hsig]
    simp [hsig]
  · rw [compress_file_bad_signature h Z opt content out hlen hsig]
    simp [hsig]

/-! ## Signature gate -/

/-- C1: on an input of at least four bytes `compress_file` returns 0 exactly
when the first four bytes are `C1 83 2A 9E` (and `main` then exits with
`EXIT_SUCCESS`); when they differ it returns -1, leaves the output stream as
it was, and `main` exits with `EXIT_FAILURE` on an output file that is still
empty. -/
theorem signature_gate (h : Host) (Z : Zlib) (opt : options) (content : List Nat)
    (out : OutFile) (room : Option Nat) (hlen : 4 ≤ content.length) :
    ((compress_file h Z (fopen_rb content) out opt).ret = 0 ↔ content.take 4 = magic)
    ∧ ((main h Z opt content room).1 = EXIT_SUCCESS ↔ content.take 4 = magic)
    ∧ (content.take 4 ≠ magic →
        (compress_file h Z (fopen_rb content) out opt).ret = -1
        ∧ (compress_file h Z (fopen_rb content) out opt).outfile = out
        ∧ (compress_file h Z (fopen_rb content) out opt).stdout = []
        ∧ (main h Z opt content room).1 = EXIT_FAILURE
        ∧ (main h Z opt content room).2.data = []) := by
  refine ⟨compress_file_ret h Z opt content out hlen, ?_, ?_⟩
  · unfold main
    simp only [← compress_file_ret h Z opt content (fopen_wb room) hlen]
    by_cases hr : (compress_file h Z (fopen_rb content) (fopen_wb room) opt).ret = 0
    · simp [hr]
    · simp [hr, EXIT_SUCCESS, EXIT_FAILURE]
  · intro hsig
    unfold main
    rw [compress_file_bad_signature h Z opt content out hlen hsig,
      compress_file_bad_signature h Z opt content (fopen_wb room) hlen hsig]
    simp [fopen_wb]

/-- C1 at a concrete input: a stream that starts `00 83 2A 9E` is rejected
with -1 and nothing is written. -/
theorem signature_gate_witness :
    (compress_file le_host store (fopen_rb [0x00, 0x83, 0x2a, 0x9e, 7, 7, 7]) (fopen_wb none)
        { verbose := false, harder := false }).ret = -1
    ∧ (compress_file le_host store (fopen_rb [0x00, 0x83, 0x2a, 0x9e, 7, 7, 7]) (fopen_wb none)
        { verbose := false, harder := false }).outfile = fopen_wb none
    ∧ (compress_file le_host store (fopen_rb [0x00, 0x83, 0x2a, 0x9e, 7, 7, 7]) (fopen_wb none)
        { verbose := false, harder := false }).stdout = []
    ∧ (main le_host store { verbose := false, harder := false }
        [0x00, 0x83, 0x2a, 0x9e, 7, 7, 7] none).1 = EXIT_FAILURE
    ∧ (main le_host store { verbose := false, harder := false }
        [0x00, 0x83, 0x2a, 0x9e, 7, 7, 7] none).2.data = [] :=
  (signature_gate le_host store { verbose := false, harder := false }
    [0x00, 0x83, 0x2a, 0x9e, 7, 7, 7] (fopen_wb none) none (by decide)).2.2 (by decide)

/-! ## Byte order of the length fields -/

theorem write_le_uint32_data (e : Endian) (f : OutFile) (v : Nat) (hroom : f.room = none) :
    (write_le_uint32 e f v).2.data = f.data ++ object_bytes e v := by
  unfold write_le_uint32
  rw [fwrite_unbounded _ _ _ f hroom]
  simp only [Nat.one_mul]
  rw [List.take_of_length_le (by rw [object_bytes_length])]

/-- On a little-endian host `write_le_uint32` emits the little-endian bytes. -/
theorem write_le_uint32_little (f : OutFile) (v : Nat) (hroom : f.room = none) :
    (write_le_uint32 Endian.little f v).2.data
      = f.data ++ [v % 256, v / 2 ^ 8 % 256, v / 2 ^ 16 % 256, v / 2 ^ 24 % 256] := by
  rw [write_le_uint32_data _ _ _ hroom]; rfl

/-- C5 (the code departs from it): on a big-endian host `write_le_uint32`
emits the value 4 as `00 00 00 04`, not as the little-endian `04 00 00 00`,
and the record of the four-byte package carries both length fields in that
order. -/
theorem write_le_uint32_big_endian_host :
    (write_le_uint32 Endian.big (fopen_wb none) 4).2.data = [0, 0, 0, 4]
    ∧ (write_le_uint32 Endian.big (fopen_wb none) 4).2.data
        ≠ [4 % 256, 4 / 2 ^ 8 % 256, 4 / 2 ^ 16 % 256, 4 / 2 ^ 24 % 256]
    ∧ (main be_host store { verbose := false, harder := false } magic none).2.data
        = [0, 0, 0, 4, 0, 0, 0, 4, 0xc1, 0x83, 0x2a, 0x9e] := by
  refine ⟨by decide, by decide, ?_⟩
  unfold main
  rw [compress_file_good_signature be_host store _ magic _ (by decide),
    records_single store _ magic (by decide) (by decide)]
  decide

/-! ## The package that is only its signature -/

/-- C6 as stated fails: on the four signature bytes alone the main pass,
which starts again at offset 0, reads those four bytes as a chunk, and the
output stream has 12 bytes with the storing compressor, not 0. -/
theorem magic_only_output_not_empty :
    (compress_file le_host store (fopen_rb magic) (fopen_wb none)
        { verbose := false, harder := false }).ret = 0
    ∧ (compress_file le_host store (fopen_rb magic) (fopen_wb none)
        { verbose := false, harder := false }).outfile.data
        = [4, 0, 0, 0, 4, 0, 0, 0, 0xc1, 0x83, 0x2a, 0x9e]
    ∧ records store { verbose := false, harder := false } magic
        = [{ compressed_length := 4, raw_length := 4, payload := magic }]
    ∧ ¬ ((compress_file le_host store (fopen_rb magic) (fopen_wb none)
          { verbose := false, harder := false }).outfile.data.length = 0) := by
  rw [compress_file_good_signature le_host store _ magic _ (by decide),
    records_single store _ magic (by decide) (by decide)]
  decide

/-- C6, amended: on the four signature bytes alone `compress_file` returns 0
and, on a device that accepts every write, emits exactly one record: its raw
length is 4, its payload is the compression of the four signature bytes, and
the output stream has 8 bytes more than the payload. -/
theorem magic_only_one_record (h : Host) (Z : Zlib) (opt : options) :
    (compress_file h Z (fopen_rb magic) (fopen_wb none) opt).ret = 0
    ∧ records Z opt magic = [record_of Z opt magic]
    ∧ (compress_file h Z (fopen_rb magic) (fopen_wb none) opt).outfile.data
        = (record_of Z opt magic).bytes h.endian
    ∧ (record_of Z opt magic).raw_length = 4
    ∧ (record_of Z opt magic).payload = Z.compress2 (compressBound 4) magic (level opt)
    ∧ (compress_file h Z (fopen_rb magic) (fopen_wb none) opt).outfile.data.length
        = 8 + (Z.compress2 (compressBound 4) magic (level opt)).length := by
  have hone := records_single Z opt magic (by decide) (by decide)
  have hdata : (compress_file h Z (fopen_rb magic) (fopen_wb none) opt).outfile.data
      = (record_of Z opt magic).bytes h.endian := by
    rw [compress_file_good_signature h Z opt magic _ (by decide), hone]
    simp only [List.foldl_cons, List.foldl_nil,
      write_record_unbounded h.endian (fopen_wb none) _ rfl]
    simp [fopen_wb]
  have hraw : (record_of Z opt magic).raw_length = 4 := by
    simp only [record_of, to_uint32, UINT32_MOD, magic, List.length_cons, List.length_nil]
    rfl
  refine ⟨?_, hone, hdata, hraw, rfl, ?_⟩
  · rw [compress_file_good_signature h Z opt magic _ (by decide)]
  · rw [hdata]
    simp only [Record.bytes, List.length_append, object_bytes_length,
      record_of, magic, List.length_cons, List.length_nil]

/-! ## Writes that fall short -/

/-- C7 as stated fails: with a device that accepts nothing, the first write
of the record is short (`write_le_uint32` reports 0 of 4 bytes), nothing
reaches the output, and still `compress_file` returns 0 and `main` exits with
`EXIT_SUCCESS`. -/
theorem short_write_still_succeeds :
    (write_le_uint32 Endian.little (fopen_wb (some 0)) 4).1 < 4
    ∧ (compress_file le_host store (fopen_rb magic) (fopen_wb (some 0))
        { verbose := false, harder := false }).ret = 0
    ∧ (compress_file le_host store (fopen_rb magic) (fopen_wb (some 0))
        { verbose := false, harder := false }).outfile.data = []
    ∧ (main le_host store { verbose := false, harder := false } magic (some 0)).1
        = EXIT_SUCCESS := by
  unfold main
  rw [compress_file_good_signature le_host store _ magic _ (by decide),
    records_single store _ magic (by decide) (by decide)]
  decide

/-- C7, amended: `compress_file` reads the result of no write. For every
input that passes the signature check it returns 0 and `main` exits with
`EXIT_SUCCESS`, whatever the output device accepts. -/
theorem write_results_ignored (h : Host) (Z : Zlib) (opt : options) (content : List Nat)
    (room : Option Nat) (hsig : content.take 4 = magic) :
    (compress_file h Z (fopen_rb content) (fopen_wb room) opt).ret = 0
    ∧ (main h Z opt content room).1 = EXIT_SUCCESS := by
  unfold main
  rw [compress_file_good_signature h Z opt content _ hsig]
  simp

/-- C7, amended, at a concrete input: a device with room for 5 bytes only. -/
theorem write_results_ignored_witness :
    (compress_file le_host store (fopen_rb [0xc1, 0x83, 0x2a, 0x9e, 1, 2, 3]) (fopen_wb (some 5))
        { verbose := false, harder := true }).ret = 0
    ∧ (main le_host store { verbose := false, harder := true }
        [0xc1, 0x83, 0x2a, 0x9e, 1, 2, 3] (some 5)).1 = EXIT_SUCCESS :=
  write_results_ignored le_host store { verbose := false, harder := true }
    [0xc1, 0x83, 0x2a, 0x9e, 1, 2, 3] (some 5) (by decide)

/-! ## Verbose mode does not touch the output -/

/-- C9: the output stream and the return value of `compress_file` do not
depend on the verbose flag: for every input stream, output stream, host,
compressor and value of `harder`, the run with `verbose` set and the run
without it end with the same output stream and the same return value. -/
theorem verbose_does_not_change_output (h : Host) (Z : Zlib) (harder : Bool) (infile : InFile)
    (out : OutFile) :
    (compress_file h Z infile out { verbose := true, harder := harder }).outfile
        = (compress_file h Z infile out { verbose := false, harder := harder }).outfile
    ∧ (compress_file h Z infile out { verbose := true, harder := harder }).ret
        = (compress_file h Z infile out { verbose := false, harder := harder }).ret := by
  unfold compress_file
  simp only []
  split
  · exact ⟨rfl, rfl⟩
  · refine ⟨?_, rfl⟩
    simp only []
    rw [(compress_loop_spec h Z _ _ _).1, (compress_loop_spec h Z _ _ _).1]
    rfl

/-! ## Chunk sizes -/

theorem to_uint32_of_le_bufsiz (n : Nat) (hn : n ≤ COMPRESS_BUFSIZ) : to_uint32 n = n := by
  unfold to_uint32 UINT32_MOD
  unfold COMPRESS_BUFSIZ at hn
  exact Nat.mod_eq_of_lt (by omega)

theorem record_of_raw_length (Z : Zlib) (opt : options) (c : List Nat)
    (hc : c.length ≤ COMPRESS_BUFSIZ) : (record_of Z opt c).raw_length = c.length :=
  to_uint32_of_le_bufsiz c.length hc

theorem records_length (Z : Zlib) (opt : options) (l : List Nat) :
    (records Z opt l).length = (l.length + 32767) / 32768 := by
  unfold records
  rw [List.length_map, chunks_length COMPRESS_BUFSIZ (by decide)]
  rfl

theorem records_raw_length (Z : Zlib) (opt : options) (l : List Nat) :
    (records Z opt l).map Record.raw_length = (chunks COMPRESS_BUFSIZ l).map List.length := by
  unfold records
  rw [List.map_map]
  apply List.map_congr_left
  intro c hc
  exact record_of_raw_length Z opt c (chunks_mem_length COMPRESS_BUFSIZ l c hc).2

theorem compress_file_data (h : Host) (Z : Zlib) (opt : options) (content : List Nat)
    (hsig : content.take 4 = magic) :
    (compress_file h Z (fopen_rb content) (fopen_wb none) opt).outfile.data
      = encode h.endian (records Z opt content) := by
  rw [compress_file_good_signature h Z opt content _ hsig]
  simp only []
  rw [foldl_write_record_unbounded h.endian _ _ rfl]
  simp [fopen_wb]

/-- C2: for an input that passes the signature check, of total length `L`
(signature included), the output on a device that accepts every write is the
stream of `records`, there are `ceil (L / 32768)` of them, every raw length
is positive and at most 32768, and every record but the last has raw length
32768. -/
theorem chunk_sizing (h : Host) (Z : Zlib) (opt : options) (content : List Nat)
    (hsig : content.take 4 = magic) :
    (compress_file h Z (fopen_rb content) (fopen_wb none) opt).ret = 0
    ∧ (compress_file h Z (fopen_rb content) (fopen_wb none) opt).outfile.data
        = encode h.endian (records Z opt content)
    ∧ (records Z opt content).length = (content.length + 32767) / 32768
    ∧ (∀ r ∈ records Z opt content, 0 < r.raw_length ∧ r.raw_length ≤ 32768)
    ∧ (∀ r ∈ (records Z opt content).dropLast, r.raw_length = 32768) := by
  refine ⟨?_, compress_file_data h Z opt content hsig, records_length Z opt content, ?_, ?_⟩
  · rw [compress_file_good_signature h Z opt content _ hsig]
  · intro r hr
    obtain ⟨c, hc, rfl⟩ := List.mem_map.mp hr
    have hlen := chunks_mem_length COMPRESS_BUFSIZ content c hc
    rw [record_of_raw_length Z opt c hlen.2]
    exact hlen
  · intro r hr
    unfold records at hr
    rw [← List.map_dropLast] at hr
    obtain ⟨c, hc, rfl⟩ := List.mem_map.mp hr
    have hlen := chunks_dropLast_length COMPRESS_BUFSIZ content c hc
    rw [record_of_raw_length Z opt c (by rw [hlen]), hlen]
    rfl

theorem take_magic_append (l : List Nat) : (magic ++ l).take 4 = magic := rfl

theorem length_magic_append_replicate (n : Nat) :
    (magic ++ List.replicate n 0).length = n + 4 := by
  rw [List.length_append, List.length_replicate, Nat.add_comm]
  rfl

theorem chunks_70004 (l : List Nat) (hl : l.length = 70004) :
    chunks COMPRESS_BUFSIZ l
      = [l.take COMPRESS_BUFSIZ, (l.drop COMPRESS_BUFSIZ).take COMPRESS_BUFSIZ,
         (l.drop COMPRESS_BUFSIZ).drop COMPRESS_BUFSIZ] := by
  have h0 : l ≠ [] := List.length_pos.mp (by omega)
  have h1 : l.drop COMPRESS_BUFSIZ ≠ [] :=
    List.length_pos.mp (by rw [List.length_drop, hl]; decide)
  have h2 : (l.drop COMPRESS_BUFSIZ).drop COMPRESS_BUFSIZ ≠ [] :=
    List.length_pos.mp (by rw [List.length_drop, List.length_drop, hl]; decide)
  rw [chunks_cons _ l (by decide) h0, chunks_cons _ _ (by decide) h1,
    chunks_single _ _ h2 (by rw [List.length_drop, List.length_drop, hl]; decide)]

theorem chunks_lengths_70004 (l : List Nat) (hl : l.length = 70004) :
    (chunks COMPRESS_BUFSIZ l).map List.length = [32768, 32768, 4468] := by
  rw [chunks_70004 l hl]
  simp only [List.map_cons, List.map_nil, List.length_take, List.length_drop, hl, COMPRESS_BUFSIZ]
  rfl

/-- C2 at the input of the specification: the signature followed by 70000
zero bytes gives three records, of raw lengths 32768, 32768 and 4468. -/
theorem chunk_sizing_witness :
    (compress_file le_host store (fopen_rb (magic ++ List.replicate 70000 0)) (fopen_wb none)
        { verbose := false, harder := false }).outfile.data
      = encode Endian.little
          (records store { verbose := false, harder := false } (magic ++ List.replicate 70000 0))
    ∧ (records store { verbose := false, harder := false }
        (magic ++ List.replicate 70000 0)).length = 3
    ∧ (records store { verbose := false, harder := false }
        (magic ++ List.replicate 70000 0)).map Record.raw_length = [32768, 32768, 4468] := by
  have hthm := chunk_sizing le_host store { verbose := false, harder := false }
    (magic ++ List.replicate 70000 0) (take_magic_append _)
  have hlen : (magic ++ List.replicate 70000 0).length = 70004 :=
    length_magic_append_replicate 70000
  refine ⟨hthm.2.1, ?_, ?_⟩
  · rw [hthm.2.2.1, hlen]
  · rw [records_raw_length, chunks_lengths_70004 _ hlen]

/-! ## Reading a record stream back -/

theorem object_value_bytes (e : Endian) (v : Nat) (hv : v < 2 ^ 32) :
    object_value e (object_bytes e v) = v := by
  cases e <;> simp only [object_bytes, object_value] <;> omega

theorem read_records_nil (e : Endian) : read_records e [] = some [] := by
  rw [read_records]; simp

theorem read_records_append (e : Endian) (r : Record) (bs : List Nat)
    (hc : r.compressed_length = r.payload.length) (hc32 : r.compressed_length < 2 ^ 32)
    (hr32 : r.raw_length < 2 ^ 32) :
    read_records e (r.bytes e ++ bs) = (read_records e bs).map (fun rs => r :: rs) := by
  have e1 : (r.bytes e ++ bs).take 4 = object_bytes e r.compressed_length := by
    simp only [Record.bytes, List.append_assoc]
    exact List.take_left' (object_bytes_length e _)
  have e2 : (r.bytes e ++ bs).drop 4 = object_bytes e r.raw_length ++ (r.payload ++ bs) := by
    simp only [Record.bytes, List.append_assoc]
    exact List.drop_left' (object_bytes_length e _)
  have e3 : ((r.bytes e ++ bs).drop 4).take 4 = object_bytes e r.raw_length := by
    rw [e2]; exact List.take_left' (object_bytes_length e _)
  have e4 : (r.bytes e ++ bs).drop 8 = r.payload ++ bs := by
    have h8 : (r.bytes e ++ bs).drop 8 = ((r.bytes e ++ bs).drop 4).drop 4 := by
      rw [List.drop_drop]
    rw [h8, e2]; exact List.drop_left' (object_bytes_length e _)
  have hne : r.bytes e ++ bs ≠ [] := by
    intro hnil
    have := congrArg List.length hnil
    simp only [Record.bytes, List.length_append, object_bytes_length, List.length_nil] at this
    omega
  have hlen : ¬ (r.bytes e ++ bs).length < 8 := by
    simp only [Record.bytes, List.length_append, object_bytes_length]
    omega
  rw [read_records]
  simp only [hne, hlen, if_false, e1, e3, e4, object_value_bytes e _ hc32,
    object_value_bytes e _ hr32]
  have hfit : ¬ (r.payload ++ bs).length < r.compressed_length := by
    rw [List.length_append, hc]; omega
  simp only [hfit, if_false]
  rw [hc, List.drop_left, List.take_left, ← hc]

theorem read_records_encode (e : Endian) (rs : List Record)
    (hrs : ∀ r ∈ rs, r.compressed_length = r.payload.length ∧ r.compressed_length < 2 ^ 32
      ∧ r.raw_length < 2 ^ 32) :
    read_records e (encode e rs) = some rs := by
  induction rs with
  | nil => simp [encode, read_records_nil]
  | cons r rs ih =>
    have hr := hrs r (List.mem_cons_self r rs)
    rw [encode, read_records_append e r _ hr.1 hr.2.1 hr.2.2,
      ih (fun r' hr' => hrs r' (List.mem_cons_of_mem r hr'))]
    rfl

/-! ## The compressors used in concrete runs -/

theorem le_compressBound (n : Nat) : n ≤ compressBound n := by
  unfold compressBound; omega

theorem compressBound_le (n : Nat) (hn : n ≤ COMPRESS_BUFSIZ) :
    compressBound n ≤ compressBound 32768 := by
  unfold COMPRESS_BUFSIZ at hn
  unfold compressBound
  omega

theorem compressBound_bufsiz : compressBound 32768 = 32791 := by decide

theorem store_respects_bound : store.respects_bound := by
  intro source lvl
  simp only [store, List.length_take]
  omega

theorem store_inverted_by_id : store.inverted_by id := by
  intro source lvl
  simp only [store, id]
  exact List.take_of_length_le (le_compressBound _)

/-! ## Round trip -/

/-- C3: for an input that passes the signature check and either value of
`harder`, if `inflate` inverts the compressor at every level, then the output
(on a device that accepts every write) is the stream of `records`, and
inflating the payload of each record and concatenating the results in stream
order gives back the input; the first of them starts with the four signature
bytes. -/
theorem round_trip (h : Host) (Z : Zlib) (opt : options) (content : List Nat)
    (inflate : List Nat → List Nat) (hsig : content.take 4 = magic)
    (hinv : Z.inverted_by inflate) :
    (compress_file h Z (fopen_rb content) (fopen_wb none) opt).outfile.data
        = encode h.endian (records Z opt content)
    ∧ ((records Z opt content).map (fun r => inflate r.payload)).flatten = content
    ∧ (∀ r, (records Z opt content).head? = some r → (inflate r.payload).take 4 = magic) := by
  have hmap : (records Z opt content).map (fun r => inflate r.payload)
      = chunks COMPRESS_BUFSIZ content := by
    unfold records
    rw [List.map_map]
    conv_rhs => rw [← List.map_id (chunks COMPRESS_BUFSIZ content)]
    apply List.map_congr_left
    intro c _
    exact hinv c (level opt)
  refine ⟨compress_file_data h Z opt content hsig, ?_, ?_⟩
  · rw [hmap, chunks_flatten COMPRESS_BUFSIZ (by decide)]
  · intro r hr
    have hne : content ≠ [] := by
      intro hnil
      rw [hnil] at hsig
      exact absurd hsig (by decide)
    rw [records_cons Z opt content hne, List.head?_cons, Option.some.injEq] at hr
    subst hr
    show (inflate (Z.compress2 _ _ _)).take 4 = magic
    rw [hinv, List.take_take]
    exact hsig

/-- C3 at a concrete input, with the storing compressor and the identity as
its inverse, at the harder level. -/
theorem round_trip_witness :
    ((records store { verbose := false, harder := true }
        [0xc1, 0x83, 0x2a, 0x9e, 10, 20, 30]).map (fun r => id r.payload)).flatten
      = [0xc1, 0x83, 0x2a, 0x9e, 10, 20, 30] :=
  (round_trip le_host store { verbose := false, harder := true }
    [0xc1, 0x83, 0x2a, 0x9e, 10, 20, 30] id (by decide) store_inverted_by_id).2.1

/-! ## Record layout and length fields -/

theorem forall₂_chunks_records (Z : Zlib) (opt : options) (content : List Nat)
    (R : List Nat → Record → Prop)
    (hR : ∀ c ∈ chunks COMPRESS_BUFSIZ content, R c (record_of Z opt c)) :
    List.Forall₂ R (chunks COMPRESS_BUFSIZ content) (records Z opt content) := by
  unfold records
  rw [List.forall₂_map_right_iff, List.forall₂_same]
  exact hR

theorem record_of_lengths (Z : Zlib) (opt : options) (c : List Nat) (hZ : Z.respects_bound)
    (hc : c.length ≤ COMPRESS_BUFSIZ) :
    (record_of Z opt c).payload.length ≤ compressBound c.length
    ∧ compressBound c.length ≤ compressBound 32768
    ∧ (record_of Z opt c).payload.length < 2 ^ 32
    ∧ c.length < 2 ^ 32
    ∧ (record_of Z opt c).compressed_length = (record_of Z opt c).payload.length
    ∧ (record_of Z opt c).raw_length = c.length := by
  have h1 : (record_of Z opt c).payload.length ≤ compressBound c.length := hZ c (level opt)
  have h2 := compressBound_le c.length hc
  have h3 := compressBound_bufsiz
  have h4 : (record_of Z opt c).payload.length < 2 ^ 32 := by omega
  have h5 : c.length < 2 ^ 32 := by unfold COMPRESS_BUFSIZ at hc; omega
  refine ⟨h1, h2, h4, h5, ?_, record_of_raw_length Z opt c hc⟩
  exact Nat.mod_eq_of_lt h4

theorem records_fields (Z : Zlib) (opt : options) (content : List Nat) (hZ : Z.respects_bound) :
    ∀ r ∈ records Z opt content, r.compressed_length = r.payload.length
      ∧ r.compressed_length < 2 ^ 32 ∧ r.raw_length < 2 ^ 32 := by
  intro r hr
  obtain ⟨c, hc, rfl⟩ := List.mem_map.mp hr
  have hl := record_of_lengths Z opt c hZ (chunks_mem_length COMPRESS_BUFSIZ content c hc).2
  refine ⟨hl.2.2.2.2.1, ?_, ?_⟩
  · rw [hl.2.2.2.2.1]; exact hl.2.2.1
  · rw [hl.2.2.2.2.2]; exact hl.2.2.2.1

theorem encode_eq_flatten (e : Endian) (rs : List Record) :
    encode e rs = (rs.map (Record.bytes e)).flatten := by
  induction rs with
  | nil => rfl
  | cons r rs ih => simp [encode, ih]

/-- C4: for an input that passes the signature check, with a compressor that
keeps to its bound and a device that accepts every write, the output stream
is the concatenation, in chunk order, of the bytes of one record per chunk
and nothing else. The bytes of the record of a chunk are the 4 bytes of the
compressed length, the 4 bytes of the chunk length and the compressed bytes
as they are: `4 + 4 + compressed_length` bytes, the compressed-length field
being the length of the payload and the raw-length field the length of the
chunk. A reader of the stream finds exactly these records. -/
theorem record_layout (h : Host) (Z : Zlib) (opt : options) (content : List Nat)
    (hsig : content.take 4 = magic) (hZ : Z.respects_bound) :
    (compress_file h Z (fopen_rb content) (fopen_wb none) opt).outfile.data
        = ((records Z opt content).map (Record.bytes h.endian)).flatten
    ∧ List.Forall₂
        (fun c r =>
          r.bytes h.endian
              = object_bytes h.endian (Z.compress2 (compressBound c.length) c (level opt)).length
                ++ object_bytes h.endian c.length
                ++ Z.compress2 (compressBound c.length) c (level opt)
          ∧ r.payload = Z.compress2 (compressBound c.length) c (level opt)
          ∧ (r.bytes h.endian).length = 4 + 4 + r.compressed_length
          ∧ r.compressed_length = r.payload.length
          ∧ r.raw_length = c.length
          ∧ object_value h.endian (object_bytes h.endian r.compressed_length) = r.payload.length
          ∧ object_value h.endian (object_bytes h.endian r.raw_length) = c.length)
        (chunks COMPRESS_BUFSIZ content) (records Z opt content)
    ∧ read_records h.endian
          (compress_file h Z (fopen_rb content) (fopen_wb none) opt).outfile.data
        = some (records Z opt content) := by
  have hdata := compress_file_data h Z opt content hsig
  refine ⟨by rw [hdata, encode_eq_flatten], ?_, ?_⟩
  · apply forall₂_chunks_records
    intro c hc
    have hl := record_of_lengths Z opt c hZ (chunks_mem_length COMPRESS_BUFSIZ content c hc).2
    obtain ⟨_, _, h3, h4, h5, h6⟩ := hl
    have hp : (record_of Z opt c).payload = Z.compress2 (compressBound c.length) c (level opt) :=
      rfl
    refine ⟨?_, hp, ?_, h5, h6, ?_, ?_⟩
    · rw [← hp, ← h5, ← h6]; rfl
    · simp only [Record.bytes, List.length_append, object_bytes_length, h5]
    · rw [object_value_bytes _ _ (by rw [h5]; exact h3), h5]
    · rw [object_value_bytes _ _ (by rw [h6]; exact h4), h6]
  · rw [hdata]
    exact read_records_encode h.endian _ (records_fields Z opt content hZ)

/-- C4 at a concrete input: the stream written for a seven-byte package on a
little-endian host, and what a reader finds in it. -/
theorem record_layout_witness :
    (compress_file le_host store (fopen_rb [0xc1, 0x83, 0x2a, 0x9e, 10, 20, 30]) (fopen_wb none)
        { verbose := false, harder := false }).outfile.data
      = [7, 0, 0, 0, 7, 0, 0, 0, 0xc1, 0x83, 0x2a, 0x9e, 10, 20, 30]
    ∧ read_records Endian.little
        (compress_file le_host store (fopen_rb [0xc1, 0x83, 0x2a, 0x9e, 10, 20, 30])
          (fopen_wb none) { verbose := false, harder := false }).outfile.data
      = some [{ compressed_length := 7, raw_length := 7,
                payload := [0xc1, 0x83, 0x2a, 0x9e, 10, 20, 30] }] := by
  have hthm := record_layout le_host store { verbose := false, harder := false }
    [0xc1, 0x83, 0x2a, 0x9e, 10, 20, 30] (by decide) store_respects_bound
  have hone := records_single store { verbose := false, harder := false }
    [0xc1, 0x83, 0x2a, 0x9e, 10, 20, 30] (by decide) (by decide)
  refine ⟨?_, ?_⟩
  · rw [hthm.1, hone]; decide
  · refine hthm.2.2.trans ?_
    rw [hone]; decide

/-- C8: with a compressor that keeps to its bound, for every chunk and its
record the compressed length is at most `compressBound` of the raw length,
which is at most `compressBound 32768 = 32791`; both lengths are below
`2 ^ 32`, so the conversion to the 32-bit fields keeps their values: the
fields are the true lengths, and the four bytes `write_le_uint32` emits for
each hold exactly that length. The stream written is the stream of these
records. -/
theorem length_fields_exact (h : Host) (Z : Zlib) (opt : options) (content : List Nat)
    (hsig : content.take 4 = magic) (hZ : Z.respects_bound) :
    compressBound 32768 = 32791
    ∧ (compress_file h Z (fopen_rb content) (fopen_wb none) opt).outfile.data
        = encode h.endian (records Z opt content)
    ∧ List.Forall₂
        (fun c r =>
          r.payload.length ≤ compressBound c.length
          ∧ compressBound c.length ≤ compressBound 32768
          ∧ r.payload.length < 2 ^ 32
          ∧ c.length < 2 ^ 32
          ∧ to_uint32 r.payload.length = r.payload.length
          ∧ to_uint32 c.length = c.length
          ∧ r.compressed_length = r.payload.length
          ∧ r.raw_length = c.length
          ∧ (write_le_uint32 h.endian (fopen_wb none) (to_uint32 r.payload.length)).2.data
              = object_bytes h.endian r.payload.length
          ∧ (write_le_uint32 h.endian (fopen_wb none) (to_uint32 c.length)).2.data
              = object_bytes h.endian c.length
          ∧ object_value h.endian (object_bytes h.endian r.payload.length) = r.payload.length
          ∧ object_value h.endian (object_bytes h.endian c.length) = c.length)
        (chunks COMPRESS_BUFSIZ content) (records Z opt content) := by
  refine ⟨compressBound_bufsiz, compress_file_data h Z opt content hsig, ?_⟩
  apply forall₂_chunks_records
  intro c hc
  have hl := record_of_lengths Z opt c hZ (chunks_mem_length COMPRESS_BUFSIZ content c hc).2
  obtain ⟨h1, h2, h3, h4, h5, h6⟩ := hl
  have h5' : to_uint32 (record_of Z opt c).payload.length = (record_of Z opt c).payload.length :=
    h5
  have h6' : to_uint32 c.length = c.length := h6
  refine ⟨h1, h2, h3, h4, h5', h6', h5, h6, ?_, ?_, object_value_bytes _ _ h3,
    object_value_bytes _ _ h4⟩
  · rw [write_le_uint32_data _ _ _ rfl, h5']; rfl
  · rw [write_le_uint32_data _ _ _ rfl, h6']; rfl

/-- C8 at a concrete input: the length fields of the record of a seven-byte
package. -/
theorem length_fields_exact_witness :
    List.Forall₂
        (fun c r =>
          r.payload.length ≤ compressBound c.length
          ∧ compressBound c.length ≤ compressBound 32768
          ∧ r.payload.length < 2 ^ 32
          ∧ c.length < 2 ^ 32
          ∧ to_uint32 r.payload.length = r.payload.length
          ∧ to_uint32 c.length = c.length
          ∧ r.compressed_length = r.payload.length
          ∧ r.raw_length = c.length
          ∧ (write_le_uint32 Endian.little (fopen_wb none) (to_uint32 r.payload.length)).2.data
              = object_bytes Endian.little r.payload.length
          ∧ (write_le_uint32 Endian.little (fopen_wb none) (to_uint32 c.length)).2.data
              = object_bytes Endian.little c.length
          ∧ object_value Endian.little (object_bytes Endian.little r.payload.length)
              = r.payload.length
          ∧ object_value Endian.little (object_bytes Endian.little c.length) = c.length)
        (chunks COMPRESS_BUFSIZ [0xc1, 0x83, 0x2a, 0x9e, 10, 20, 30])
        (records store { verbose := false, harder := false }
          [0xc1, 0x83, 0x2a, 0x9e, 10, 20, 30]) :=
  (length_fields_exact le_host store { verbose := false, harder := false }
    [0xc1, 0x83, 0x2a, 0x9e, 10, 20, 30] (by decide) store_respects_bound).2.2

/-! ## Verbose output -/

theorem size_div_of_ne_zero (a b : Nat) (hb : b ≠ 0) : size_div a b = some (a / b) := by
  simp [size_div, hb]

theorem size_add_exact (a b : Nat) (hab : a + b < 2 ^ 64) : size_add a b = a + b :=
  Nat.mod_eq_of_lt hab

theorem size_mul_exact (a b : Nat) (hab : a * b < 2 ^ 64) : size_mul a b = a * b :=
  Nat.mod_eq_of_lt hab

/-- The first two columns and the ratio of every verbose line. -/
theorem progress_ratio (Z : Zlib) (opt : options) (inlen : Nat) (hZ : Z.respects_bound)
    (cs : List (List Nat)) (hcs : ∀ c ∈ cs, 0 < c.length ∧ c.length ≤ COMPRESS_BUFSIZ) :
    ∀ t, List.Forall₂
      (fun c p =>
        p.bread = c.length ∧ p.bread ≠ 0
        ∧ p.cout = (Z.compress2 (compressBound c.length) c (level opt)).length
        ∧ p.ratio = some (p.cout * 100 / p.bread))
      cs (progress Z opt inlen t cs) := by
  induction cs with
  | nil => intro t; exact List.Forall₂.nil
  | cons c cs ih =>
    intro t
    have hc := hcs c (List.mem_cons_self c cs)
    have hl := record_of_lengths Z opt c hZ hc.2
    have hcout : (Z.compress2 (compressBound c.length) c (level opt)).length ≤ 32791 := by
      have h1 : (Z.compress2 (compressBound c.length) c (level opt)).length
          ≤ compressBound c.length := hl.1
      have h2 := hl.2.1
      have h3 := compressBound_bufsiz
      omega
    refine List.Forall₂.cons ⟨rfl, by show c.length ≠ 0; omega, rfl, ?_⟩
      (ih (fun c' hc' => hcs c' (List.mem_cons_of_mem c hc')) _)
    show size_div (size_mul _ 100) c.length = some (_ * 100 / c.length)
    rw [size_mul_exact _ _ (by omega), size_div_of_ne_zero _ _ (by omega)]

/-- The completion column: the line of the `i`-th chunk reports the bytes read
up to and including that chunk. -/
theorem progress_complete (Z : Zlib) (opt : options) (L : Nat) (hL0 : L ≠ 0)
    (hL : L * 100 < 2 ^ 64) (cs : List (List Nat)) :
    ∀ t, t + cs.flatten.length ≤ L →
      ∀ i p, (progress Z opt L t cs)[i]? = some p →
        p.complete = some ((t + ((cs.take (i + 1)).flatten.length)) * 100 / L) := by
  induction cs with
  | nil =>
    intro t _ i p hp
    simp [progress] at hp
  | cons c cs ih =>
    intro t ht i p hp
    rw [List.flatten_cons, List.length_append] at ht
    have hadd : size_add t c.length = t + c.length := size_add_exact _ _ (by omega)
    cases i with
    | zero =>
      simp only [progress, List.getElem?_cons_zero, Option.some.injEq] at hp
      subst hp
      show size_div (size_mul (size_add t c.length) 100) L = _
      rw [hadd, size_mul_exact _ _ (by omega), size_div_of_ne_zero _ _ hL0]
      simp
    | succ i =>
      simp only [progress, List.getElem?_cons_succ] at hp
      rw [hadd] at hp
      rw [ih (t + c.length) (by omega) i p hp]
      simp only [List.take_succ_cons, List.flatten_cons, List.length_append, Nat.add_assoc]

/-- The completion column is at most 100, never decreases, and ends at 100. -/
theorem progress_monotone (Z : Zlib) (opt : options) (L : Nat) (hL0 : L ≠ 0)
    (hL : L * 100 < 2 ^ 64) (cs : List (List Nat)) :
    ∀ t, t + cs.flatten.length = L →
      (∀ p ∈ progress Z opt L t cs, ∃ v, p.complete = some v ∧ t * 100 / L ≤ v ∧ v ≤ 100)
      ∧ List.Pairwise
          (fun p q => ∀ a b, p.complete = some a → q.complete = some b → a ≤ b)
          (progress Z opt L t cs)
      ∧ (∀ p, (progress Z opt L t cs).getLast? = some p → p.complete = some 100) := by
  induction cs with
  | nil =>
    intro t _
    simp [progress]
  | cons c cs ih =>
    intro t ht
    rw [List.flatten_cons, List.length_append] at ht
    have hadd : size_add t c.length = t + c.length := size_add_exact _ _ (by omega)
    have hhead : size_div (size_mul (t + c.length) 100) L
        = some ((t + c.length) * 100 / L) := by
      rw [size_mul_exact _ _ (by omega), size_div_of_ne_zero _ _ hL0]
    have hle100 : (t + c.length) * 100 / L ≤ 100 := by
      calc (t + c.length) * 100 / L ≤ L * 100 / L :=
            Nat.div_le_div_right (Nat.mul_le_mul_right 100 (by omega))
        _ = 100 := Nat.mul_div_cancel_left 100 (Nat.pos_of_ne_zero hL0)
    have hmono : t * 100 / L ≤ (t + c.length) * 100 / L :=
      Nat.div_le_div_right (Nat.mul_le_mul_right 100 (by omega))
    obtain ⟨ih1, ih2, ih3⟩ := ih (t + c.length) (by omega)
    simp only [progress]
    rw [hadd]
    refine ⟨?_, ?_, ?_⟩
    · intro p hp
      rw [List.mem_cons] at hp
      rcases hp with rfl | hp
      · exact ⟨_, hhead, hmono, hle100⟩
      · obtain ⟨v, hv, hlo, hhi⟩ := ih1 p hp
        exact ⟨v, hv, le_trans hmono hlo, hhi⟩
    · rw [List.pairwise_cons]
      refine ⟨?_, ih2⟩
      intro q hq a b ha hb
      obtain ⟨v, hv, hlo, _⟩ := ih1 q hq
      have ha' : size_div (size_mul (t + c.length) 100) L = some a := ha
      rw [hhead] at ha'
      rw [hv] at hb
      simp only [Option.some.injEq] at ha' hb
      omega
    · intro p hp
      cases hcs : cs with
      | nil =>
        subst hcs
        simp only [progress, List.getLast?_singleton, Option.some.injEq] at hp
        subst hp
        rw [List.flatten_nil, List.length_nil, Nat.add_zero] at ht
        show size_div (size_mul (t + c.length) 100) L = some 100
        rw [hhead, ht, Nat.mul_div_cancel_left 100 (Nat.pos_of_ne_zero hL0)]
      | cons c' cs' =>
        subst hcs
        simp only [progress, List.getLast?_cons_cons] at hp
        exact ih3 p (by simpa only [progress] using hp)

theorem compress_file_stdout (h : Host) (Z : Zlib) (harder : Bool) (content : List Nat)
    (out : OutFile) (hsig : content.take 4 = magic) (hL : content.length * 100 < 2 ^ 64) :
    (compress_file h Z (fopen_rb content) out { verbose := true, harder := harder }).stdout
      = progress Z { verbose := true, harder := harder } content.length 0
          (chunks COMPRESS_BUFSIZ content) := by
  rw [compress_file_good_signature h Z _ content out hsig]
  have hmod : content.length % SIZE_MOD = content.length :=
    Nat.mod_eq_of_lt (by unfold SIZE_MOD; omega)
  simp only [hmod, if_true]

/-- C10: in verbose mode, for an input of total length `L` that passes the
signature check (with a compressor that keeps to its bound, and `100 * L`
within `size_t`), there is one line per chunk; on every line the divisor of
the ratio (the raw length of the chunk) and the divisor of the completion
(`L`) are not zero, the ratio is `floor (compressed * 100 / raw)` and the
completion is `floor (t * 100 / L)` for `t` the number of bytes read up to
and including that chunk; the completion is at most 100, never decreases
from a line to a later one, and is 100 on the last line. -/
theorem progress_report (h : Host) (Z : Zlib) (harder : Bool) (content : List Nat)
    (out : OutFile) (hsig : content.take 4 = magic) (hZ : Z.respects_bound)
    (hL : content.length * 100 < 2 ^ 64) :
    (ftell (fseek_end (fopen_rb content)) % SIZE_MOD = content.length ∧ content.length ≠ 0)
    ∧ List.Forall₂
        (fun c p =>
          p.bread = c.length ∧ p.bread ≠ 0
          ∧ p.cout = (Z.compress2 (compressBound c.length) c
              (level { verbose := true, harder := harder })).length
          ∧ p.ratio = some (p.cout * 100 / p.bread))
        (chunks COMPRESS_BUFSIZ content)
        (compress_file h Z (fopen_rb content) out { verbose := true, harder := harder }).stdout
    ∧ (∀ i p,
        (compress_file h Z (fopen_rb content) out
            { verbose := true, harder := harder }).stdout[i]? = some p →
          p.complete
            = some ((((chunks COMPRESS_BUFSIZ content).take (i + 1)).flatten.length * 100)
                / content.length))
    ∧ (∀ p ∈ (compress_file h Z (fopen_rb content) out
            { verbose := true, harder := harder }).stdout,
        ∃ v, p.complete = some v ∧ v ≤ 100)
    ∧ List.Pairwise
        (fun p q => ∀ a b, p.complete = some a → q.complete = some b → a ≤ b)
        (compress_file h Z (fopen_rb content) out { verbose := true, harder := harder }).stdout
    ∧ (∀ p,
        (compress_file h Z (fopen_rb content) out
            { verbose := true, harder := harder }).stdout.getLast? = some p →
          p.complete = some 100) := by
  have hlen := length_of_signature content hsig
  have hL0 : content.length ≠ 0 := by omega
  have hflat : (chunks COMPRESS_BUFSIZ content).flatten.length = content.length := by
    rw [chunks_flatten COMPRESS_BUFSIZ (by decide)]
  rw [compress_file_stdout h Z harder content out hsig hL]
  obtain ⟨m1, m2, m3⟩ := progress_monotone Z { verbose := true, harder := harder }
    content.length hL0 hL (chunks COMPRESS_BUFSIZ content) 0 (by omega)
  refine ⟨⟨?_, hL0⟩, ?_, ?_, ?_, m2, m3⟩
  · show content.length % SIZE_MOD = content.length
    exact Nat.mod_eq_of_lt (by unfold SIZE_MOD; omega)
  · exact progress_ratio Z _ content.length hZ _ (chunks_mem_length COMPRESS_BUFSIZ content) 0
  · intro i p hp
    have hc := progress_complete Z { verbose := true, harder := harder } content.length hL0 hL
      (chunks COMPRESS_BUFSIZ content) 0 (by omega) i p hp
    rw [hc, Nat.zero_add]
  · intro p hp
    obtain ⟨v, hv, _, hhi⟩ := m1 p hp
    exact ⟨v, hv, hhi⟩

theorem progress_store_70004 (opt : options) (l : List Nat) (hl : l.length = 70004) :
    progress store opt l.length 0 (chunks COMPRESS_BUFSIZ l)
      = [{ bread := 32768, cout := 32768, ratio := some 100, complete := some 46 },
         { bread := 32768, cout := 32768, ratio := some 100, complete := some 93 },
         { bread := 4468, cout := 4468, ratio := some 100, complete := some 100 }] := by
  rw [chunks_70004 l hl]
  simp only [progress, store, List.length_take, List.length_drop, hl, COMPRESS_BUFSIZ,
    compressBound]
  decide

/-- C10 at the input of the specification, the signature followed by 70000
zero bytes, with the storing compressor: three lines, completion 46, 93 and
100. -/
theorem progress_report_witness :
    (compress_file le_host store (fopen_rb (magic ++ List.replicate 70000 0)) (fopen_wb none)
        { verbose := true, harder := false }).stdout
      = [{ bread := 32768, cout := 32768, ratio := some 100, complete := some 46 },
         { bread := 32768, cout := 32768, ratio := some 100, complete := some 93 },
         { bread := 4468, cout := 4468, ratio := some 100, complete := some 100 }]
    ∧ List.Pairwise
        (fun p q => ∀ a b, p.complete = some a → q.complete = some b → a ≤ b)
        (compress_file le_host store (fopen_rb (magic ++ List.replicate 70000 0))
          (fopen_wb none) { verbose := true, harder := false }).stdout := by
  have hlen : (magic ++ List.replicate 70000 0).length = 70004 :=
    length_magic_append_replicate 70000
  have hL : (magic ++ List.replicate 70000 0).length * 100 < 2 ^ 64 := by
    rw [hlen]; decide
  have hthm := progress_report le_host store false (magic ++ List.replicate 70000 0)
    (fopen_wb none) (take_magic_append _) store_respects_bound hL
  refine ⟨?_, hthm.2.2.2.2.1⟩
  rw [compress_file_stdout le_host store false _ _ (take_magic_append _) hL]
  exact progress_store_70004 _ _ hlen

end Uz2
